import Mathlib

/-!
# Verification of `sqrt_2.py` (square root of 2 to a requested digit count)

Shallow embedding of the repository's Python program in Lean 4.

The program computes √2 with Newton's method over Python's `decimal`
arbitrary-precision arithmetic, formats it as a fixed-point digit string,
and verifies the persisted string against an independently recomputed
reference.  The embedding below models:

* Python `Decimal` values by their exact rational value (`ℚ`); the
  `decimal` context operations (add, sub, div at precision `p` with
  `ROUND_HALF_EVEN`) are modelled as "exact rational result, then rounded
  to `p` significant decimal digits half-even", which is the value-level
  semantics of the General Decimal Arithmetic specification that the
  `decimal` module implements.  Special values (NaN, infinities) and
  context traps (capacity overflow of `quantize`) are outside the model.
* Python strings by `List Char`.
* the mutable global `decimal.getcontext()` by an explicitly threaded
  `DecCtx` value (precision and rounding mode), so that the effect of each
  phase on the ambient context is visible in the return type.
* console printing of the verifier by a returned `VerifyReport` value that
  records which diagnostic is printed; file reading by an
  `Option (List Char)` argument (`none` = the file does not exist).
-/

set_option maxRecDepth 4000000

attribute [local semireducible] Rat.add Rat.mul Rat.sub Rat.inv Rat.ofScientific

/-! ## Decimal digit counting and rounding primitives -/

/-- Number of decimal digits of `n` (1 for `n = 0`), fuel-based so that it
reduces in the kernel.  `fuel` bounds the recursion depth; `digitCount`
supplies `fuel = n`, which is sufficient. -/
def digitCountAux : Nat → Nat → Nat
  | 0, _ => 1
  | f + 1, n => if n < 10 then 1 else digitCountAux f (n / 10) + 1

/-- Number of decimal digits of a natural number (`digitCount 0 = 1`). -/
def digitCount (n : Nat) : Nat := digitCountAux n n

/-- Least `k` (starting from the accumulator) with `b ≤ a * 10 ^ k`,
searched with explicit fuel. -/
def leastPow10Aux (a b : Nat) : Nat → Nat → Nat
  | 0, k => k
  | f + 1, k => if b ≤ a * 10 ^ k then k else leastPow10Aux a b f (k + 1)

/-- Least `k` with `b ≤ a * 10 ^ k` (for `1 ≤ a`; fuel `digitCount b`
suffices). -/
def leastPow10 (a b : Nat) : Nat := leastPow10Aux a b (digitCount b) 0

/-- Floor of `log₁₀ (a / b)` for positive naturals `a`, `b`. -/
def floorLog10 (a b : Nat) : Int :=
  if b ≤ a then (digitCount (a / b) : Int) - 1
  else -(leastPow10 a b : Int)

/-- Quotient `n / d` rounded to the nearest integer, ties to even
(the `ROUND_HALF_EVEN` rounding of Python's `decimal`). -/
def halfEvenDiv (n d : Nat) : Nat :=
  let q := n / d
  let r := n % d
  if 2 * r < d then q
  else if d < 2 * r then q + 1
  else if q % 2 = 0 then q else q + 1

/-- Round a positive rational to `p` significant decimal digits, half-even.
This is the value computed by a `decimal` context operation at precision
`p` (exact results representable in at most `p` digits are returned
exactly, which coincides with half-even rounding of the exact value). -/
def roundSigPos (p : Nat) (q : ℚ) : ℚ :=
  let a := q.num.toNat
  let b := q.den
  let t := floorLog10 a b
  let f := t - p + 1
  if 0 ≤ f then
    ((halfEvenDiv a (b * 10 ^ f.toNat) : Nat) : ℚ) * ((10 ^ f.toNat : Nat) : ℚ)
  else
    ((halfEvenDiv (a * 10 ^ (-f).toNat) b : Nat) : ℚ) / ((10 ^ (-f).toNat : Nat) : ℚ)

/-- Round a rational to `p` significant decimal digits, half-even
(sign-symmetric, as in the `decimal` specification). -/
def roundSig (p : Nat) (q : ℚ) : ℚ :=
  if q = 0 then 0
  else if q < 0 then -(roundSigPos p (-q)) else roundSigPos p q

/-- Context addition: exact sum rounded to `p` significant digits. -/
def ctxAdd (p : Nat) (a b : ℚ) : ℚ := roundSig p (a + b)

/-- Context subtraction: exact difference rounded to `p` significant digits. -/
def ctxSub (p : Nat) (a b : ℚ) : ℚ := roundSig p (a - b)

/-- Context division: exact quotient rounded to `p` significant digits. -/
def ctxDiv (p : Nat) (a b : ℚ) : ℚ := roundSig p (a / b)

/-! ## Integer square root (for `Decimal(2).sqrt()`) -/

/-- Fuel-based integer square root (digit-doubling recursion on `n / 4`),
written so that it reduces in the kernel. -/
def isqrtAux : Nat → Nat → Nat
  | 0, _ => 0
  | f + 1, n =>
    if n < 2 then n
    else
      let r := isqrtAux f (n / 4) * 2
      if (r + 1) * (r + 1) ≤ n then r + 1 else r

/-- Integer square root `⌊√n⌋` of a natural number. -/
def isqrt (n : Nat) : Nat := isqrtAux n n

/-- Model of `Decimal(2).sqrt()` at context precision `p`: √2 correctly rounded
(half-even, as the decimal `squareroot` operation prescribes regardless of
the context rounding mode) to `p` significant digits.  Since `1 < √2 < 10`
the result is `c / 10 ^ (p - 1)` with `c` the half-even rounding of
`√2 · 10 ^ (p - 1)`; ties are impossible because √2 is irrational, but the
half-even branch is kept for fidelity. -/
def sqrt2Ctx (p : Nat) : ℚ :=
  let e := p - 1
  let target := 2 * 10 ^ (2 * e)
  let s := isqrt target
  let c :=
    if (2 * s + 1) * (2 * s + 1) < 4 * target then s + 1
    else if 4 * target < (2 * s + 1) * (2 * s + 1) then s
    else if s % 2 = 0 then s else s + 1
  ((c : Nat) : ℚ) / ((10 ^ e : Nat) : ℚ)

/-! ## Truncation (`ROUND_DOWN`) and `quantize` -/

/-- Truncation of a rational toward zero (Python `ROUND_DOWN`). -/
def truncTowardZero (q : ℚ) : Int := q.num.tdiv q.den

/-- Coefficient of `value.quantize(Decimal(1).scaleb(-n), rounding=ROUND_DOWN)`:
the integer `trunc(value · 10 ^ n)` toward zero. -/
def truncScaled (value : ℚ) (n : Nat) : Int :=
  truncTowardZero (value * ((10 ^ n : Nat) : ℚ))

/-- Value of `value.quantize(Decimal(1).scaleb(-n), rounding=ROUND_DOWN)`:
`value` truncated toward zero at `n` fractional digits. -/
def quantizeDown (n : Nat) (value : ℚ) : ℚ :=
  ((truncScaled value n : Int) : ℚ) / ((10 ^ n : Nat) : ℚ)

/-! ## The decimal context and the Newton solver (`sqrt_2_high_precision`) -/

/-- Rounding modes of the `decimal` context that the program uses. -/
inductive RoundMode where
  | halfEven : RoundMode
  | down : RoundMode
deriving DecidableEq

/-- The mutable global `decimal.getcontext()`: active precision and rounding
mode.  The Python default context is `⟨28, halfEven⟩`. -/
structure DecCtx where
  prec : Nat
  rounding : RoundMode
deriving DecidableEq

/-- The Python default decimal context (precision 28, `ROUND_HALF_EVEN`). -/
def defaultCtx : DecCtx := ⟨28, .halfEven⟩

/-- One Newton update `(x + two / x) / 2` evaluated under context
precision `p` (each arithmetic operation rounds half-even to `p`
significant digits), from line 93 of `sqrt_2.py`. -/
def newtonStep (p : Nat) (x : ℚ) : ℚ :=
  ctxDiv p (ctxAdd p x (ctxDiv p 2 x)) 2

/-- The sequence of Newton iterates of the solver loop:
`x₀ = Decimal(1.5)`, `xᵢ₊₁ = (xᵢ + 2/xᵢ) / 2` under precision `p`. -/
def newtonSeq (p : Nat) : Nat → ℚ
  | 0 => 1.5
  | i + 1 => newtonStep p (newtonSeq p i)

/-- The solver's `while True` loop.  Each call performs one iteration:
update `x`, test `abs(x - prev_x) <= threshold` (the subtraction is a
context operation), and on failure either recurse or, when the iteration
cap is reached (`fuel = 0`), raise.  Started with
`fuel = max_iterations - 1` it performs at most `max_iterations`
iterations, and the convergence test is checked before the cap, exactly as
in lines 90–99 of `sqrt_2.py`. -/
def newtonGo (p : Nat) (threshold : ℚ) : Nat → ℚ → Except String ℚ
  | 0, x =>
    let xn := newtonStep p x
    if |ctxSub p xn x| ≤ threshold then .ok xn
    else .error "Newton iteration did not converge within max iterations"
  | fuel + 1, x =>
    let xn := newtonStep p x
    if |ctxSub p xn x| ≤ threshold then .ok xn
    else newtonGo p threshold fuel xn

/-- Model of `sqrt_2_high_precision(decimal_places, max_iterations)` from
`sqrt_2.py`, with the global decimal context threaded explicitly.

* `decimal_places == 0`: quick path `Decimal(2).sqrt()` under the ambient
  context (which it leaves untouched).
* otherwise: sets the context to `⟨decimal_places + 30, ROUND_HALF_EVEN⟩`,
  runs Newton iteration from `Decimal(1.5)` with convergence threshold
  `10 ** -(decimal_places + 10)`, then sets the context to
  `⟨decimal_places + 10, ROUND_DOWN⟩` and returns the converged value
  quantized (truncated) to `decimal_places` fractional digits.  On
  non-convergence it raises, leaving the working context in place. -/
def sqrt_2_high_precision (ctx : DecCtx) (decimal_places : Nat)
    (max_iterations : Nat) : Except String ℚ × DecCtx :=
  if decimal_places = 0 then (.ok (sqrt2Ctx ctx.prec), ctx)
  else
    let working_prec := decimal_places + 30
    let threshold : ℚ := 1 / ((10 ^ (decimal_places + 10) : Nat) : ℚ)
    match newtonGo working_prec threshold (max_iterations - 1) 1.5 with
    | .ok x => (.ok (quantizeDown decimal_places x), ⟨decimal_places + 10, .down⟩)
    | .error e => (.error e, ⟨working_prec, .halfEven⟩)

/-! ## Fixed-point formatting (`decimal_to_fixed_string`) -/

/-- The decimal digit characters of a natural number (Python `str(int)` /
the digits of a `Decimal` coefficient). -/
def natChars (m : Nat) : List Char := Nat.toDigits 10 m

/-- Numeric value of a list of decimal digit characters (most significant
first): the semantic reading of a digit string. -/
def charsToNat (l : List Char) : Nat :=
  l.foldl (fun a c => 10 * a + (c.toNat - 48)) 0

/-- Model of `format(v, "f")` for a finite `Decimal` with (signed) coefficient `c`
and exponent `-nexp`: the plain fixed-point rendering with no exponent
notation.  For `nexp > 0` the coefficient digits are left-padded with `'0'`
to at least `nexp + 1` characters and the point inserted `nexp` digits from
the right; for `nexp = 0` it is the plain integer. -/
def formatF (c : Int) (nexp : Nat) : List Char :=
  let sign : List Char := if c < 0 then ['-'] else []
  let ds := natChars c.natAbs
  if nexp = 0 then sign ++ ds
  else
    let padded := List.replicate (nexp + 1 - ds.length) '0' ++ ds
    sign ++ padded.take (padded.length - nexp) ++
      '.' :: padded.drop (padded.length - nexp)

/-- Model of `decimal_to_fixed_string(value, decimal_places)` from `sqrt_2.py`
(lines 113–137), on the exact value of the `Decimal` argument.

* `decimal_places == 0`: `format(value.quantize(Decimal(1), ROUND_DOWN), "f")`.
* otherwise: quantize to `decimal_places` fractional digits with
  `ROUND_DOWN` (giving a `Decimal` with exponent `-decimal_places` and
  coefficient `truncScaled value decimal_places`), format it, then apply
  the source's fix-ups: append a point and zeros when the string has no
  point, else split at the point (Python's `s.split(".")`, which for the
  at-most-one-point strings produced here is take-while/drop) and
  right-pad or cut the fractional part to exactly `decimal_places`
  characters. -/
def decimal_to_fixed_string (value : ℚ) (decimal_places : Nat) : List Char :=
  if decimal_places = 0 then formatF (truncTowardZero value) 0
  else
    let v := truncScaled value decimal_places
    let s := formatF v decimal_places
    if '.' ∉ s then s ++ '.' :: List.replicate decimal_places '0'
    else
      let int_part := s.takeWhile (fun ch => ch != '.')
      let frac_part := s.drop (int_part.length + 1)
      if frac_part.length < decimal_places then
        int_part ++ '.' :: (frac_part ++ List.replicate (decimal_places - frac_part.length) '0')
      else if decimal_places < frac_part.length then
        int_part ++ '.' :: frac_part.take decimal_places
      else int_part ++ '.' :: frac_part

/-- The solve-then-format pipeline of `main`: compute
`sqrt_2_high_precision(n)` starting from the Python default context and
format the result with `decimal_to_fixed_string` (the `max_iterations`
default is 10000). -/
def solveAndFormat (n : Nat) : Except String (List Char) :=
  ((sqrt_2_high_precision defaultCtx n 10000).1).map
    (fun v => decimal_to_fixed_string v n)

deriving instance DecidableEq for Except

/-! ## The verifier (`verify_written_result`) -/

/-- Python `str.strip()` on the whitespace the program can meet: drop
ASCII whitespace from both ends. -/
def pyStrip (s : List Char) : List Char :=
  ((s.dropWhile Char.isWhitespace).reverse.dropWhile Char.isWhitespace).reverse

/-- The index scan of lines 176–185 of `sqrt_2.py`: the first index at
which the two strings differ, or the length of the common prefix when one
string runs out (Python's `for i in range(min_len)` loop with the
`mismatch_pos = min_len` fallback). -/
def firstDiffIdx : List Char → List Char → Nat
  | x :: xs, y :: ys => if x = y then firstDiffIdx xs ys + 1 else 0
  | _, _ => 0

/-- What `verify_written_result` prints: the verdict plus, on failure, the
lengths, first-mismatch index and the context windows around it. -/
inductive VerifyReport where
  | fileNotFound : VerifyReport
  | passed : VerifyReport
  | failed (oursLen refLen pos : Nat) (windowW windowR : List Char) : VerifyReport
deriving DecidableEq

/-- Returns `true` exactly on a mismatch report. -/
def VerifyReport.isFailed : VerifyReport → Bool
  | .failed _ _ _ _ _ => true
  | _ => false

/-- The reference string the verifier compares against: `Decimal(2).sqrt()`
at precision `decimal_places + 40`, truncated (`ROUND_DOWN`) to
`decimal_places` fractional digits and formatted with
`decimal_to_fixed_string` (lines 158–166 of `sqrt_2.py`). -/
def referenceString (decimal_places : Nat) : List Char :=
  decimal_to_fixed_string
    (quantizeDown decimal_places (sqrt2Ctx (decimal_places + 40)))
    decimal_places

/-- Model of `verify_written_result(filename, decimal_places)` from `sqrt_2.py`
(lines 145–199), with the file's content passed as `none` (file does not
exist / cannot be read) or `some raw`, the printed diagnostics returned as
a `VerifyReport`, and the global decimal context threaded explicitly.

The missing-file check happens before the context is touched; otherwise
the context is set to `⟨decimal_places + 40, ROUND_DOWN⟩` for the
reference computation and left there.  The file content is stripped on
read and again before the comparison, the reference string is stripped
once. -/
def verify_written_result (ctx : DecCtx) (fileContent : Option (List Char))
    (decimal_places : Nat) : (Bool × VerifyReport) × DecCtx :=
  match fileContent with
  | none => ((false, .fileNotFound), ctx)
  | some raw =>
    let content := pyStrip raw
    let verify_prec := decimal_places + 40
    let ctx2 : DecCtx := ⟨verify_prec, .down⟩
    let ref_str := referenceString decimal_places
    let ours := pyStrip content
    let ref := pyStrip ref_str
    if ours = ref then ((true, .passed), ctx2)
    else
      let min_len := min ours.length ref.length
      let pos := firstDiffIdx ours ref
      let start := pos - 20
      let stop := min min_len (pos + 20)
      ((false,
        .failed ours.length ref.length pos
          ((ours.drop start).take (stop - start))
          ((ref.drop start).take (stop - start))), ctx2)

/-! ## The input prompt (`prompt_decimal_places`) -/

/-- Value of a list of decimal digit characters, `none` unless the list is
nonempty and all digits (the accepting core of Python `int(str)`). -/
def parseDigits (s : List Char) : Option Nat :=
  if s ≠ [] ∧ s.all Char.isDigit then some (charsToNat s) else none

/-- Python `int(user_input)` on a stripped string: optional sign followed
by digits (`ValueError` is `none`). -/
def parsePyInt (s : List Char) : Option Int :=
  match s with
  | '-' :: rest => (parseDigits rest).map (fun m => -(m : Int))
  | '+' :: rest => (parseDigits rest).map (fun m => (m : Int))
  | _ => (parseDigits s).map (fun m => (m : Int))

/-- Python `str.lower()` on the characters the confirm prompt looks at. -/
def pyLower (s : List Char) : List Char := s.map Char.toLower

/-- Model of `prompt_decimal_places(default)` from `sqrt_2.py` (lines 30–62), with
the interactive `input()` calls fed from the list `inputs`; `none` models
leaving via `sys.exit` (EOF / cancelled input).  An empty line accepts the
default; an unparsable or negative entry prints a message and re-prompts;
an entry above 500000 asks for confirmation (`y`/`yes` accepts, anything
else re-prompts). -/
def prompt_decimal_places (inputs : List (List Char)) (default : Int) : Option Int :=
  match inputs with
  | [] => none
  | line :: rest =>
    let user_input := pyStrip line
    if user_input = [] then some default
    else
      match parsePyInt user_input with
      | none => prompt_decimal_places rest default
      | some n =>
        if n < 0 then prompt_decimal_places rest default
        else if 500000 < n then
          match rest with
          | [] => none
          | confirmLine :: rest2 =>
            let confirm := pyLower (pyStrip confirmLine)
            if confirm = ['y'] ∨ confirm = ['y', 'e', 's'] then some n
            else prompt_decimal_places rest2 default
        else some n

/-! ## Semantic value of a fixed-point digit string -/

/-- Numeric value of a (sign-free) fixed-point digit string: the digits
before the first `'.'` as integer part, the digits after it scaled down by
their count; a string with no `'.'` is read as an integer. -/
def fixedStringVal (s : List Char) : ℚ :=
  let ip := s.takeWhile (fun ch => ch != '.')
  if ip.length = s.length then ((charsToNat s : Nat) : ℚ)
  else
    let fp := s.drop (ip.length + 1)
    ((charsToNat ip : Nat) : ℚ) + ((charsToNat fp : Nat) : ℚ) / ((10 ^ fp.length : Nat) : ℚ)

/-! ## Basic facts about the digit-count and rounding primitives -/

theorem digitCountAux_ge_one (f n : Nat) : 1 ≤ digitCountAux f n := by
  induction f generalizing n with
  | zero => exact Nat.le_refl 1
  | succ f ih =>
    simp only [digitCountAux]
    split
    · exact Nat.le_refl 1
    · exact Nat.le_add_left 1 _

theorem digitCountAux_lower {f n : Nat} (h1 : 1 ≤ n) (h2 : n ≤ f) :
    10 ^ (digitCountAux f n - 1) ≤ n := by
  induction f generalizing n with
  | zero => omega
  | succ f ih =>
    simp only [digitCountAux]
    split
    · simpa using h1
    · rename_i h10
      have hn10 : 10 ≤ n := by omega
      have hrec : 1 ≤ n / 10 := (Nat.one_le_div_iff (by norm_num)).2 hn10
      have hlt : n / 10 < n := Nat.div_lt_self (by omega) (by norm_num)
      have hle : n / 10 ≤ f := by omega
      have hd1 : 1 ≤ digitCountAux f (n / 10) := digitCountAux_ge_one f (n / 10)
      have hpow : (10 : Nat) ^ (digitCountAux f (n / 10) + 1 - 1)
          = 10 ^ (digitCountAux f (n / 10) - 1) * 10 := by
        rw [Nat.add_sub_cancel]
        conv_lhs => rw [← Nat.sub_add_cancel hd1]
        rw [pow_succ]
      rw [hpow]
      calc 10 ^ (digitCountAux f (n / 10) - 1) * 10
          ≤ n / 10 * 10 := Nat.mul_le_mul_right 10 (ih hrec hle)
        _ ≤ n := Nat.div_mul_le_self n 10

theorem digitCountAux_upper {f n : Nat} (h2 : n ≤ f) : n < 10 ^ digitCountAux f n := by
  induction f generalizing n with
  | zero =>
    have : n = 0 := by omega
    subst this
    norm_num [digitCountAux]
  | succ f ih =>
    simp only [digitCountAux]
    split
    · simpa using ‹n < 10›
    · rename_i h10
      have hn10 : 10 ≤ n := by omega
      have hlt : n / 10 < n := Nat.div_lt_self (by omega) (by norm_num)
      have hle : n / 10 ≤ f := by omega
      have hih := ih hle
      rw [pow_succ]
      have hmod : n % 10 < 10 := Nat.mod_lt _ (by norm_num)
      have hdm : n = 10 * (n / 10) + n % 10 := (Nat.div_add_mod n 10).symm
      omega

theorem digitCount_lower {n : Nat} (h1 : 1 ≤ n) : 10 ^ (digitCount n - 1) ≤ n :=
  digitCountAux_lower h1 (Nat.le_refl n)

theorem digitCount_upper (n : Nat) : n < 10 ^ digitCount n :=
  digitCountAux_upper (Nat.le_refl n)

theorem leastPow10Aux_found {a b : Nat} (f k : Nat) (hfuel : b ≤ a * 10 ^ (k + f)) :
    b ≤ a * 10 ^ (leastPow10Aux a b f k) := by
  induction f generalizing k with
  | zero => simpa using hfuel
  | succ f ih =>
    simp only [leastPow10Aux]
    split
    · assumption
    · exact ih (k + 1) (by rw [show k + 1 + f = k + (f + 1) from by omega]; exact hfuel)

theorem leastPow10_found {a b : Nat} (ha : 1 ≤ a) : b ≤ a * 10 ^ leastPow10 a b := by
  unfold leastPow10
  apply leastPow10Aux_found
  calc b ≤ 10 ^ digitCount b := Nat.le_of_lt (digitCount_upper b)
    _ = 1 * 10 ^ digitCount b := (Nat.one_mul _).symm
    _ ≤ a * 10 ^ (0 + digitCount b) := by
        rw [Nat.zero_add]
        exact Nat.mul_le_mul_right _ ha

theorem leastPow10Aux_ge (a b f k : Nat) : k ≤ leastPow10Aux a b f k := by
  induction f generalizing k with
  | zero => exact Nat.le_refl k
  | succ f ih =>
    simp only [leastPow10Aux]
    split
    · exact Nat.le_refl k
    · exact Nat.le_trans (Nat.le_succ k) (ih (k + 1))

theorem leastPow10_pos {a b : Nat} (hab : a < b) : 1 ≤ leastPow10 a b := by
  unfold leastPow10
  have hd : 1 ≤ digitCount b := digitCountAux_ge_one b b
  obtain ⟨f, hf⟩ : ∃ f, digitCount b = f + 1 := ⟨digitCount b - 1, by omega⟩
  rw [hf]
  simp only [leastPow10Aux, pow_zero, Nat.mul_one]
  split
  · omega
  · exact leastPow10Aux_ge a b f 1

theorem le_halfEvenDiv (n d : Nat) : n / d ≤ halfEvenDiv n d := by
  unfold halfEvenDiv
  dsimp only
  split
  · exact Nat.le_refl _
  · split
    · omega
    · split <;> omega

theorem halfEvenDiv_pos {n d : Nat} (hd : 0 < d) (hnd : d ≤ n) :
    1 ≤ halfEvenDiv n d :=
  Nat.le_trans ((Nat.one_le_div_iff hd).2 hnd) (le_halfEvenDiv n d)

theorem floorLog10_nonneg_le {a b : Nat} (hb : 1 ≤ b) (h : b ≤ a) :
    b * 10 ^ (floorLog10 a b).toNat ≤ a := by
  unfold floorLog10
  rw [if_pos h]
  have hdiv1 : 1 ≤ a / b := (Nat.one_le_div_iff (by omega)).2 h
  have hlow : 10 ^ (digitCount (a / b) - 1) ≤ a / b := digitCount_lower hdiv1
  have hd1 : 1 ≤ digitCount (a / b) := digitCountAux_ge_one _ _
  have htn : ((digitCount (a / b) : Int) - 1).toNat = digitCount (a / b) - 1 := by omega
  rw [htn]
  calc b * 10 ^ (digitCount (a / b) - 1) ≤ b * (a / b) := Nat.mul_le_mul_left b hlow
    _ ≤ a := by rw [Nat.mul_comm]; exact Nat.div_mul_le_self a b

theorem le_mul_pow_of_le {a b k l : Nat} (hkl : k ≤ l) (h : b ≤ a * 10 ^ k) :
    b ≤ a * 10 ^ l :=
  Nat.le_trans h (Nat.mul_le_mul_left a (Nat.pow_le_pow_right (by norm_num) hkl))

theorem roundSigPos_pos {p : Nat} (hp : 1 ≤ p) {q : ℚ} (hq : 0 < q) :
    0 < roundSigPos p q := by
  have hnum : 0 < q.num := Rat.num_pos.mpr hq
  have hbpos : 0 < q.den := q.pos
  unfold roundSigPos
  dsimp only
  set a := q.num.toNat with hadef
  set b := q.den with hbdef
  have ha1 : 1 ≤ a := by omega
  set t := floorLog10 a b with ht
  split
  · rename_i hf
    have hba : b ≤ a := by
      by_contra hab
      push_neg at hab
      have h1 : 1 ≤ leastPow10 a b := leastPow10_pos hab
      have hteq : t = -(leastPow10 a b : Int) := by
        rw [ht]; unfold floorLog10; rw [if_neg (by omega)]
      omega
    have hkey : b * 10 ^ (t - (p : Int) + 1).toNat ≤ a := by
      have h1 : b * 10 ^ t.toNat ≤ a := floorLog10_nonneg_le (by omega) hba
      have hle : (t - (p : Int) + 1).toNat ≤ t.toNat := by omega
      calc b * 10 ^ (t - (p : Int) + 1).toNat
          ≤ b * 10 ^ t.toNat :=
            Nat.mul_le_mul_left b (Nat.pow_le_pow_right (by norm_num) hle)
        _ ≤ a := h1
    have hhed : 1 ≤ halfEvenDiv a (b * 10 ^ (t - (p : Int) + 1).toNat) :=
      halfEvenDiv_pos (by positivity) hkey
    have c1 : (0 : ℚ) < ((halfEvenDiv a (b * 10 ^ (t - (p : Int) + 1).toNat) : Nat) : ℚ) :=
      Nat.cast_pos.mpr (by omega)
    have c2 : (0 : ℚ) < ((10 ^ (t - (p : Int) + 1).toNat : Nat) : ℚ) := by positivity
    exact mul_pos c1 c2
  · rename_i hf
    push_neg at hf
    have hkey : b ≤ a * 10 ^ (-(t - (p : Int) + 1)).toNat := by
      by_cases hba : b ≤ a
      · calc b ≤ a := hba
          _ ≤ a * 10 ^ (-(t - (p : Int) + 1)).toNat :=
              Nat.le_mul_of_pos_right a (pow_pos (by norm_num) _)
      · push_neg at hba
        have h1 : 1 ≤ leastPow10 a b := leastPow10_pos hba
        have hteq : t = -(leastPow10 a b : Int) := by
          rw [ht]; unfold floorLog10; rw [if_neg (by omega)]
        have hfound : b ≤ a * 10 ^ leastPow10 a b := leastPow10_found ha1
        exact le_mul_pow_of_le (by omega) hfound
    have hhed : 1 ≤ halfEvenDiv (a * 10 ^ (-(t - (p : Int) + 1)).toNat) b :=
      halfEvenDiv_pos (by omega) hkey
    have c1 : (0 : ℚ) < ((halfEvenDiv (a * 10 ^ (-(t - (p : Int) + 1)).toNat) b : Nat) : ℚ) :=
      Nat.cast_pos.mpr (by omega)
    have c2 : (0 : ℚ) < ((10 ^ (-(t - (p : Int) + 1)).toNat : Nat) : ℚ) := by positivity
    exact div_pos c1 c2

theorem roundSig_pos {p : Nat} (hp : 1 ≤ p) {q : ℚ} (hq : 0 < q) :
    0 < roundSig p q := by
  unfold roundSig
  rw [if_neg (ne_of_gt hq), if_neg (not_lt.mpr (le_of_lt hq))]
  exact roundSigPos_pos hp hq

theorem ctxAdd_pos {p : Nat} (hp : 1 ≤ p) {x y : ℚ} (hx : 0 < x) (hy : 0 < y) :
    0 < ctxAdd p x y :=
  roundSig_pos hp (add_pos hx hy)

theorem ctxDiv_pos {p : Nat} (hp : 1 ≤ p) {x y : ℚ} (hx : 0 < x) (hy : 0 < y) :
    0 < ctxDiv p x y :=
  roundSig_pos hp (div_pos hx hy)

theorem newtonStep_pos {p : Nat} (hp : 1 ≤ p) {x : ℚ} (hx : 0 < x) :
    0 < newtonStep p x :=
  ctxDiv_pos hp (ctxAdd_pos hp hx (ctxDiv_pos hp (by norm_num) hx)) (by norm_num)

theorem newtonSeq_pos {p : Nat} (hp : 1 ≤ p) (i : Nat) : 0 < newtonSeq p i := by
  induction i with
  | zero => norm_num [newtonSeq]
  | succ i ih => exact newtonStep_pos hp ih

/-! ## The solver loop: iterates and the non-convergence path -/

theorem newtonGo_error (p : Nat) (thr : ℚ) :
    ∀ fuel i : Nat,
      (∀ j, i ≤ j → j ≤ i + fuel →
        ¬ |ctxSub p (newtonSeq p (j + 1)) (newtonSeq p j)| ≤ thr) →
      newtonGo p thr fuel (newtonSeq p i) =
        .error "Newton iteration did not converge within max iterations" := by
  intro fuel
  induction fuel with
  | zero =>
    intro i h
    simp only [newtonGo]
    rw [show newtonStep p (newtonSeq p i) = newtonSeq p (i + 1) from rfl]
    rw [if_neg (h i (Nat.le_refl i) (Nat.le_add_right i 0))]
  | succ fuel ih =>
    intro i h
    simp only [newtonGo]
    rw [show newtonStep p (newtonSeq p i) = newtonSeq p (i + 1) from rfl]
    rw [if_neg (h i (Nat.le_refl i) (by omega))]
    exact ih (i + 1) (fun j hj1 hj2 => h j (by omega) (by omega))

/-- Claim C10: in `sqrt_2_high_precision`, every Newton iterate is strictly
positive throughout the loop — starting from the initial guess 1.5, each
update `(x + 2/x) / 2` of a positive value is positive under the decimal
context arithmetic at working precision `decimal_places + 30` — so the
division `two / x` never divides by zero and every iteration is
well-defined. -/
theorem newton_iterates_positive (decimal_places i : Nat) :
    0 < newtonSeq (decimal_places + 30) i ∧
      newtonSeq (decimal_places + 30) i ≠ 0 := by
  have h := newtonSeq_pos (p := decimal_places + 30) (by omega) i
  exact ⟨h, ne_of_gt h⟩

/-- Claim C4: if the Newton iteration reaches `max_iterations` without the
convergence test `|x_new − x_prev| ≤ 10^-(decimal_places+10)` succeeding
(the test is evaluated after each of the `max_iterations` performed
iterations and always fails), the solver returns the non-convergence error
and no partial or best-effort value, leaving the working context in
place. -/
theorem solver_nonconvergence_error (ctx : DecCtx)
    (decimal_places max_iterations : Nat)
    (hn : 0 < decimal_places) (hmax : 1 ≤ max_iterations)
    (hdiv : ∀ i, i < max_iterations →
      ¬ |ctxSub (decimal_places + 30) (newtonSeq (decimal_places + 30) (i + 1))
            (newtonSeq (decimal_places + 30) i)| ≤
          1 / ((10 ^ (decimal_places + 10) : Nat) : ℚ)) :
    sqrt_2_high_precision ctx decimal_places max_iterations =
      (.error "Newton iteration did not converge within max iterations",
        ⟨decimal_places + 30, .halfEven⟩) := by
  unfold sqrt_2_high_precision
  rw [if_neg (by omega)]
  dsimp only
  have h0 : (1.5 : ℚ) = newtonSeq (decimal_places + 30) 0 := rfl
  rw [h0, newtonGo_error (decimal_places + 30)
    (1 / ((10 ^ (decimal_places + 10) : Nat) : ℚ)) (max_iterations - 1) 0
    (fun j hj1 hj2 => hdiv j (by omega))]

/-- Witness for C4 at `decimal_places = 1`, `max_iterations = 1`: the first
iteration moves from 1.5 to about 1.4167, far beyond the threshold
`10^-11`, so the solver errors. -/
theorem solver_nonconvergence_error_witness :
    sqrt_2_high_precision defaultCtx 1 1 =
      (.error "Newton iteration did not converge within max iterations",
        ⟨31, .halfEven⟩) := by
  have h := solver_nonconvergence_error defaultCtx 1 1 (by decide) (by decide)
    (fun i hi => by
      have hi0 : i = 0 := by omega
      subst hi0
      decide)
  simpa using h

/-! ## The decimal context across phases (claim C6) and the pipeline values -/

/-- Counterexample to claim C6: calling the solver with `decimal_places = 1`
from the Python default context does not restore the context — it leaves
precision 11 and `ROUND_DOWN` active instead of precision 28 and
`ROUND_HALF_EVEN`. -/
theorem ctx_not_restored_counterexample :
    (sqrt_2_high_precision defaultCtx 1 10000).2 ≠ defaultCtx := by decide

/-- Claim C6 as amended: the context is not restored but overwritten.  The
`decimal_places = 0` quick path of the solver leaves the context unchanged;
for `decimal_places > 0` a successful solver call leaves
`⟨decimal_places + 10, ROUND_DOWN⟩` and a failed one leaves the working
context `⟨decimal_places + 30, ROUND_HALF_EVEN⟩`; the verifier leaves the
context unchanged when the file is missing and `⟨decimal_places + 40,
ROUND_DOWN⟩` otherwise.  (The formatter performs no context mutation.) -/
theorem ctx_after_phases (ctx : DecCtx) (n maxit : Nat) :
    (sqrt_2_high_precision ctx 0 maxit).2 = ctx ∧
    (0 < n → (sqrt_2_high_precision ctx n maxit).2 =
      (if (sqrt_2_high_precision ctx n maxit).1.isOk then (⟨n + 10, .down⟩ : DecCtx)
        else ⟨n + 30, .halfEven⟩)) ∧
    (verify_written_result ctx none n).2 = ctx ∧
    (∀ content, (verify_written_result ctx (some content) n).2 = ⟨n + 40, .down⟩) := by
  refine ⟨?_, ?_, rfl, ?_⟩
  · unfold sqrt_2_high_precision
    rw [if_pos rfl]
  · intro hn
    unfold sqrt_2_high_precision
    rw [if_neg (by omega)]
    dsimp only
    cases hE : newtonGo (n + 30) (1 / ((10 ^ (n + 10) : Nat) : ℚ)) (maxit - 1) 1.5 with
    | ok x => rfl
    | error e => rfl
  · intro content
    unfold verify_written_result
    dsimp only
    split <;> rfl

/-- Witness for the amended C6: from the default context, the successful
`decimal_places = 1` solver call leaves `⟨11, ROUND_DOWN⟩` active. -/
theorem ctx_after_phases_witness :
    (sqrt_2_high_precision defaultCtx 1 10000).2 = ⟨11, .down⟩ := by
  have h := (ctx_after_phases defaultCtx 1 10000).2.1 (by decide)
  rw [h]
  decide

/-- Claim C1: the solve-then-format pipeline yields the digit string `"1"`
(no decimal point) for `n = 0`, `"1.4"` for `n = 1` and `"1.41421"` for
`n = 5` — the truncation of √2 = 1.41421356…, never a rounding up. -/
theorem pipeline_small_values :
    solveAndFormat 0 = .ok ['1'] ∧
    ('.' ∉ ['1']) ∧
    solveAndFormat 1 = .ok "1.4".data ∧
    solveAndFormat 5 = .ok "1.41421".data := by
  refine ⟨by decide, by decide, by decide, by decide⟩

/-! ## Digit strings: value and shape of the formatted output -/

theorem toDigitsCore_append (fuel : Nat) :
    ∀ (n : Nat) (acc : List Char),
      Nat.toDigitsCore 10 fuel n acc = Nat.toDigitsCore 10 fuel n [] ++ acc := by
  induction fuel with
  | zero => intro n acc; rfl
  | succ fuel ih =>
    intro n acc
    simp only [Nat.toDigitsCore]
    split
    · rfl
    · rw [ih (n / 10) (Nat.digitChar (n % 10) :: acc),
        ih (n / 10) [Nat.digitChar (n % 10)]]
      simp

theorem foldl_digits_init (xs : List Char) (s : Nat) :
    List.foldl (fun a c => 10 * a + (c.toNat - 48)) s xs
      = s * 10 ^ xs.length + List.foldl (fun a c => 10 * a + (c.toNat - 48)) 0 xs := by
  induction xs generalizing s with
  | nil => simp
  | cons c t ih =>
    simp only [List.foldl_cons, List.length_cons]
    rw [ih (10 * s + (c.toNat - 48)), ih (10 * 0 + (c.toNat - 48)), pow_succ]
    ring

theorem charsToNat_append (a b : List Char) :
    charsToNat (a ++ b) = charsToNat a * 10 ^ b.length + charsToNat b := by
  unfold charsToNat
  rw [List.foldl_append, foldl_digits_init]

theorem digitChar_toNat {k : Nat} (hk : k < 10) :
    (Nat.digitChar k).toNat - 48 = k := by
  interval_cases k <;> decide

theorem digitChar_isDigit {k : Nat} (hk : k < 10) :
    (Nat.digitChar k).isDigit = true := by
  interval_cases k <;> decide

theorem charsToNat_toDigitsCore {fuel n : Nat} (h : n < 10 ^ fuel) :
    charsToNat (Nat.toDigitsCore 10 fuel n []) = n := by
  induction fuel generalizing n with
  | zero =>
    have hn : n = 0 := by simpa using h
    subst hn
    rfl
  | succ fuel ih =>
    simp only [Nat.toDigitsCore]
    split
    · rename_i h0
      have hn : n < 10 := by omega
      have hd : (Nat.digitChar (n % 10)).toNat - 48 = n % 10 :=
        digitChar_toNat (by omega)
      simp only [charsToNat, List.foldl_cons, List.foldl_nil]
      omega
    · rename_i h0
      rw [toDigitsCore_append fuel (n / 10) [Nat.digitChar (n % 10)],
        charsToNat_append]
      have hdiv : n / 10 < 10 ^ fuel := by
        rw [pow_succ] at h
        omega
      rw [ih hdiv]
      have hd : (Nat.digitChar (n % 10)).toNat - 48 = n % 10 :=
        digitChar_toNat (by omega)
      simp only [List.length_cons, List.length_nil, pow_one,
        charsToNat, List.foldl_cons, List.foldl_nil]
      omega

theorem charsToNat_natChars (m : Nat) : charsToNat (natChars m) = m := by
  unfold natChars Nat.toDigits
  exact charsToNat_toDigitsCore
    (Nat.lt_of_lt_of_le (Nat.lt_pow_self (by norm_num) m)
      (Nat.pow_le_pow_right (by norm_num) (Nat.le_succ m)))

theorem toDigitsCore_isDigit (fuel : Nat) :
    ∀ (n : Nat) (acc : List Char), (∀ c ∈ acc, c.isDigit = true) →
      ∀ c ∈ Nat.toDigitsCore 10 fuel n acc, c.isDigit = true := by
  induction fuel with
  | zero => intro n acc hacc c hc; exact hacc c hc
  | succ fuel ih =>
    intro n acc hacc c hc
    simp only [Nat.toDigitsCore] at hc
    split at hc
    · rcases List.mem_cons.mp hc with h | h
      · subst h; exact digitChar_isDigit (Nat.mod_lt _ (by norm_num))
      · exact hacc c h
    · refine ih (n / 10) (Nat.digitChar (n % 10) :: acc) ?_ c hc
      intro d hd
      rcases List.mem_cons.mp hd with h | h
      · subst h; exact digitChar_isDigit (Nat.mod_lt _ (by norm_num))
      · exact hacc d h

theorem natChars_isDigit (m : Nat) : ∀ c ∈ natChars m, c.isDigit = true := by
  unfold natChars Nat.toDigits
  exact toDigitsCore_isDigit (m + 1) m [] (by simp)

theorem dot_not_mem_natChars (m : Nat) : ('.' : Char) ∉ natChars m := by
  intro h
  exact absurd (natChars_isDigit m '.' h) (by decide)

theorem charsToNat_replicate_zero (k : Nat) :
    charsToNat (List.replicate k '0') = 0 := by
  induction k with
  | zero => rfl
  | succ k ih =>
    have h1 : List.replicate (k + 1) '0' = ['0'] ++ List.replicate k '0' := by
      simp [List.replicate_succ]
    rw [h1, charsToNat_append, ih]
    simp [show charsToNat ['0'] = 0 from by decide]

theorem takeWhile_append_dot (ip : List Char) (fp : List Char) (hip : '.' ∉ ip) :
    (ip ++ '.' :: fp).takeWhile (fun ch => ch != '.') = ip := by
  induction ip with
  | nil => simp [List.takeWhile_cons]
  | cons a t ih =>
    have ha : a ≠ '.' := fun h => hip (h ▸ List.mem_cons_self a t)
    have ht : '.' ∉ t := fun h => hip (List.mem_cons_of_mem a h)
    simp only [List.cons_append, List.takeWhile_cons]
    rw [if_pos (by simpa using ha)]
    rw [ih ht]

theorem drop_append_dot (ip : List Char) (fp : List Char) :
    (ip ++ '.' :: fp).drop (ip.length + 1) = fp := by
  have h1 : ip ++ '.' :: fp = (ip ++ ['.']) ++ fp := by simp
  have h2 : (ip ++ ['.']).length = ip.length + 1 := by simp
  rw [h1, ← h2, List.drop_left]

theorem takeWhile_eq_self_of_no_dot {s : List Char} (h : '.' ∉ s) :
    s.takeWhile (fun ch => ch != '.') = s := by
  induction s with
  | nil => rfl
  | cons a t ih =>
    have ha : a ≠ '.' := fun hh => h (hh ▸ List.mem_cons_self a t)
    have ht : '.' ∉ t := fun hh => h (List.mem_cons_of_mem a hh)
    simp only [List.takeWhile_cons]
    rw [if_pos (by simpa using ha), ih ht]

theorem formatF_shape (c : Int) {nexp : Nat} (hn : 0 < nexp) :
    formatF c nexp =
      ((if c < 0 then ['-'] else []) ++
        (List.replicate (nexp + 1 - (natChars c.natAbs).length) '0' ++ natChars c.natAbs).take
          ((List.replicate (nexp + 1 - (natChars c.natAbs).length) '0' ++ natChars c.natAbs).length - nexp))
      ++ '.' ::
        (List.replicate (nexp + 1 - (natChars c.natAbs).length) '0' ++ natChars c.natAbs).drop
          ((List.replicate (nexp + 1 - (natChars c.natAbs).length) '0' ++ natChars c.natAbs).length - nexp) := by
  unfold formatF
  dsimp only
  rw [if_neg (show ¬ nexp = 0 by omega)]

theorem padded_length {m nexp : Nat} :
    nexp + 1 ≤ (List.replicate (nexp + 1 - (natChars m).length) '0' ++ natChars m).length := by
  rw [List.length_append, List.length_replicate]
  omega

theorem dot_not_mem_padded (m nexp : Nat) :
    ('.' : Char) ∉ List.replicate (nexp + 1 - (natChars m).length) '0' ++ natChars m := by
  intro h
  rcases List.mem_append.mp h with h | h
  · exact absurd (List.eq_of_mem_replicate h) (by decide)
  · exact dot_not_mem_natChars m h

theorem formatF_pieces (c : Int) {nexp : Nat} (hn : 0 < nexp) :
    ∃ ip fp, formatF c nexp = ip ++ '.' :: fp ∧ fp.length = nexp ∧
      '.' ∉ ip ∧ '.' ∉ fp := by
  rw [formatF_shape c hn]
  set padded := List.replicate (nexp + 1 - (natChars c.natAbs).length) '0' ++ natChars c.natAbs with hpad
  have hplen : nexp + 1 ≤ padded.length := padded_length
  have hdot : ('.' : Char) ∉ padded := dot_not_mem_padded c.natAbs nexp
  refine ⟨(if c < 0 then ['-'] else []) ++ padded.take (padded.length - nexp),
    padded.drop (padded.length - nexp), rfl, ?_, ?_, ?_⟩
  · rw [List.length_drop]
    omega
  · intro h
    rcases List.mem_append.mp h with h | h
    · split at h
      · exact absurd (List.mem_singleton.mp h) (by decide)
      · exact absurd h (List.not_mem_nil '.')
    · exact hdot (List.mem_of_mem_take h)
  · intro h
    exact hdot (List.mem_of_mem_drop h)

theorem decimal_to_fixed_string_eq_formatF (value : ℚ) {n : Nat} (hn : 0 < n) :
    decimal_to_fixed_string value n = formatF (truncScaled value n) n := by
  unfold decimal_to_fixed_string
  rw [if_neg (by omega)]
  dsimp only
  obtain ⟨ip, fp, hs, hlen, hip, hfp⟩ := formatF_pieces (truncScaled value n) hn
  rw [hs]
  have hmem : ('.' : Char) ∈ ip ++ '.' :: fp := by simp
  rw [if_neg (not_not_intro hmem)]
  rw [takeWhile_append_dot ip fp hip]
  rw [drop_append_dot ip fp]
  rw [if_neg (by omega), if_neg (by omega)]

/-- Claim C3: for every (finite) Decimal value and every `n > 0`,
`decimal_to_fixed_string(value, n)` returns a string containing a decimal
point with exactly `n` characters after it (the source right-pads with
`'0'` and truncates over-long representations to enforce this); for
`n = 0` it returns an integer-only string with no decimal point. -/
theorem decimal_to_fixed_string_shape (value : ℚ) (decimal_places : Nat) :
    (0 < decimal_places →
      ∃ ip fp, decimal_to_fixed_string value decimal_places = ip ++ '.' :: fp ∧
        fp.length = decimal_places ∧ '.' ∉ ip ∧ '.' ∉ fp) ∧
    (decimal_places = 0 → '.' ∉ decimal_to_fixed_string value decimal_places) := by
  constructor
  · intro hn
    rw [decimal_to_fixed_string_eq_formatF value hn]
    exact formatF_pieces (truncScaled value decimal_places) hn
  · intro h0
    subst h0
    unfold decimal_to_fixed_string
    rw [if_pos rfl]
    unfold formatF
    rw [if_pos rfl]
    intro hmem
    rcases List.mem_append.mp hmem with h | h
    · split at h
      · exact absurd (List.mem_singleton.mp h) (by decide)
      · exact absurd h (List.not_mem_nil '.')
    · exact dot_not_mem_natChars _ h

/-- Witness for C3 at `value = 3/2`: `n = 2` yields a string with a point
and exactly two fractional characters, `n = 0` yields a point-free
string. -/
theorem decimal_to_fixed_string_shape_witness :
    (∃ ip fp, decimal_to_fixed_string (3 / 2) 2 = ip ++ '.' :: fp ∧
      fp.length = 2 ∧ '.' ∉ ip ∧ '.' ∉ fp) ∧
    '.' ∉ decimal_to_fixed_string (3 / 2) 0 :=
  ⟨(decimal_to_fixed_string_shape (3 / 2) 2).1 (by decide),
    (decimal_to_fixed_string_shape (3 / 2) 0).2 rfl⟩

/-! ## Value of the formatted string (claim C2) -/

theorem fixedStringVal_no_dot {s : List Char} (h : '.' ∉ s) :
    fixedStringVal s = ((charsToNat s : Nat) : ℚ) := by
  unfold fixedStringVal
  dsimp only
  rw [takeWhile_eq_self_of_no_dot h, if_pos rfl]

theorem fixedStringVal_dot_split (ip fp : List Char) (hip : '.' ∉ ip) :
    fixedStringVal (ip ++ '.' :: fp)
      = ((charsToNat ip : Nat) : ℚ)
        + ((charsToNat fp : Nat) : ℚ) / ((10 ^ fp.length : Nat) : ℚ) := by
  unfold fixedStringVal
  dsimp only
  rw [takeWhile_append_dot ip fp hip]
  rw [if_neg (by simp only [List.length_append, List.length_cons]; omega)]
  rw [drop_append_dot ip fp]

theorem fixedStringVal_formatF {c : Int} (hc : 0 ≤ c) (n : Nat) :
    fixedStringVal (formatF c n) = ((c : Int) : ℚ) / ((10 ^ n : Nat) : ℚ) := by
  rcases Nat.eq_zero_or_pos n with hn | hn
  · subst hn
    unfold formatF
    rw [if_neg (not_lt.mpr hc)]
    rw [if_pos rfl, List.nil_append]
    rw [fixedStringVal_no_dot (dot_not_mem_natChars _), charsToNat_natChars]
    have hcast : ((c.natAbs : Nat) : ℚ) = ((c : Int) : ℚ) := by
      rw [← Int.cast_natCast (R := ℚ), Int.natAbs_of_nonneg hc]
    rw [hcast, pow_zero]
    norm_num
  · rw [formatF_shape c hn]
    rw [if_neg (not_lt.mpr hc), List.nil_append]
    set padded := List.replicate (n + 1 - (natChars c.natAbs).length) '0' ++ natChars c.natAbs with hpad
    have hplen : n + 1 ≤ padded.length := padded_length
    rw [fixedStringVal_dot_split _ _
      (fun h => dot_not_mem_padded c.natAbs n (List.mem_of_mem_take h))]
    have hdroplen : (padded.drop (padded.length - n)).length = n := by
      rw [List.length_drop]
      omega
    rw [hdroplen]
    have hsplit := charsToNat_append (padded.take (padded.length - n))
      (padded.drop (padded.length - n))
    rw [List.take_append_drop, hdroplen] at hsplit
    have hpv : charsToNat padded = c.natAbs := by
      rw [hpad, charsToNat_append, charsToNat_replicate_zero, charsToNat_natChars]
      simp
    have hval : charsToNat (padded.take (padded.length - n)) * 10 ^ n
        + charsToNat (padded.drop (padded.length - n)) = c.natAbs := by omega
    have hpow : ((10 ^ n : Nat) : ℚ) ≠ 0 := by positivity
    rw [eq_div_iff hpow, add_mul, div_mul_cancel₀ _ hpow]
    have hcast : ((c.natAbs : Nat) : ℚ) = ((c : Int) : ℚ) := by
      rw [← Int.cast_natCast (R := ℚ), Int.natAbs_of_nonneg hc]
    rw [← hcast]
    exact_mod_cast hval

theorem truncTowardZero_le {q : ℚ} (hq : 0 ≤ q) :
    ((truncTowardZero q : Int) : ℚ) ≤ q := by
  unfold truncTowardZero
  rw [Int.tdiv_eq_ediv (Rat.num_nonneg.mpr hq) (by exact_mod_cast Nat.zero_le _)]
  rw [← Rat.floor_def]
  exact Int.floor_le q

/-- Claim C2: the formatted output never exceeds the true value — for every
non-negative value `v` and every `n ≥ 0`, the numeric value of the
fixed-point string produced by `decimal_to_fixed_string v n` equals the
`ROUND_DOWN` quantization of `v` at `n` fractional digits (the same
operation the solver applies at lines 105–110), which is at most `v`:
excess digits are dropped, never rounded up. -/
theorem formatted_value_le (v : ℚ) (n : Nat) (hv : 0 ≤ v) :
    fixedStringVal (decimal_to_fixed_string v n) = quantizeDown n v ∧
      quantizeDown n v ≤ v := by
  have htr : ∀ m : Nat, 0 ≤ truncScaled v m := fun m => by
    unfold truncScaled truncTowardZero
    exact Int.tdiv_nonneg (Rat.num_nonneg.mpr (mul_nonneg hv (by positivity)))
      (by exact_mod_cast Nat.zero_le _)
  constructor
  · rcases Nat.eq_zero_or_pos n with hn | hn
    · subst hn
      unfold decimal_to_fixed_string
      rw [if_pos rfl]
      have he : truncTowardZero v = truncScaled v 0 := by
        unfold truncScaled
        norm_num
      rw [he, fixedStringVal_formatF (htr 0) 0]
      rfl
    · rw [decimal_to_fixed_string_eq_formatF v hn,
        fixedStringVal_formatF (htr n) n]
      rfl
  · unfold quantizeDown truncScaled
    rw [div_le_iff₀ (by positivity)]
    exact truncTowardZero_le (mul_nonneg hv (by positivity))

/-- Witness for C2 at `v = 3/2`, `n = 3`: the string value equals the
truncation `1.500` and does not exceed `3/2`. -/
theorem formatted_value_le_witness :
    fixedStringVal (decimal_to_fixed_string (3 / 2) 3) = quantizeDown 3 (3 / 2) ∧
      quantizeDown 3 (3 / 2) ≤ 3 / 2 :=
  formatted_value_le (3 / 2) 3 (by norm_num)

/-! ## The mismatch scan of the verifier (claims C7 and C9) -/

theorem firstDiffIdx_le_min (a b : List Char) :
    firstDiffIdx a b ≤ min a.length b.length := by
  induction a generalizing b with
  | nil => simp [firstDiffIdx]
  | cons x xs ih =>
    cases b with
    | nil => simp [firstDiffIdx]
    | cons y ys =>
      simp only [firstDiffIdx, List.length_cons]
      split
      · have := ih ys
        omega
      · omega

theorem firstDiffIdx_take (a b : List Char) :
    a.take (firstDiffIdx a b) = b.take (firstDiffIdx a b) := by
  induction a generalizing b with
  | nil => simp [firstDiffIdx]
  | cons x xs ih =>
    cases b with
    | nil => simp [firstDiffIdx]
    | cons y ys =>
      simp only [firstDiffIdx]
      split
      · rename_i hxy
        subst hxy
        simp only [List.take_succ_cons]
        rw [ih ys]
      · simp

theorem firstDiffIdx_ne {a b : List Char}
    (h : firstDiffIdx a b < min a.length b.length) :
    a[firstDiffIdx a b]? ≠ b[firstDiffIdx a b]? := by
  induction a generalizing b with
  | nil => simp at h
  | cons x xs ih =>
    cases b with
    | nil => simp at h
    | cons y ys =>
      by_cases hxy : x = y
      · subst hxy
        have hrw : firstDiffIdx (x :: xs) (x :: ys) = firstDiffIdx xs ys + 1 := by
          simp [firstDiffIdx]
        rw [hrw] at h ⊢
        simp only [List.getElem?_cons_succ]
        apply ih
        simp only [List.length_cons] at h
        omega
      · have hrw : firstDiffIdx (x :: xs) (y :: ys) = 0 := by
          simp [firstDiffIdx, hxy]
        rw [hrw]
        simp only [List.getElem?_cons_zero]
        simpa using hxy

theorem firstDiffIdx_min_of_extension {a b : List Char}
    (h : (∃ t, b = a ++ t) ∨ (∃ t, a = b ++ t)) :
    firstDiffIdx a b = min a.length b.length := by
  induction a generalizing b with
  | nil => simp [firstDiffIdx]
  | cons x xs ih =>
    cases b with
    | nil =>
      rcases h with ⟨t, ht⟩ | _
      · exact absurd ht (by simp)
      · simp [firstDiffIdx]
    | cons y ys =>
      have hxy : x = y := by
        rcases h with ⟨t, ht⟩ | ⟨t, ht⟩
        · have := congrArg (fun l => l.head?) ht
          simpa using this.symm
        · have := congrArg (fun l => l.head?) ht
          simpa using this
      subst hxy
      have hrest : (∃ t, ys = xs ++ t) ∨ (∃ t, xs = ys ++ t) := by
        rcases h with ⟨t, ht⟩ | ⟨t, ht⟩
        · exact .inl ⟨t, by simpa using ht⟩
        · exact .inr ⟨t, by simpa using ht⟩
      have hrw : firstDiffIdx (x :: xs) (x :: ys) = firstDiffIdx xs ys + 1 := by
        simp [firstDiffIdx]
      rw [hrw, ih hrest]
      simp only [List.length_cons]
      omega

/-- Claim C7: on a mismatch between the persisted string and the recomputed
reference, the verifier reports the index of the first differing character
(the scanned index agrees with the stripped strings up to it and differs at
it when it lies inside both), and when one string is a strict prefix of the
other it reports the index at which the shorter string ends, i.e. the
minimum of the two lengths. -/
theorem verify_reports_first_mismatch (ctx : DecCtx) (raw : List Char) (n : Nat)
    (ours ref : List Char) (hours : ours = pyStrip (pyStrip raw))
    (href : ref = pyStrip (referenceString n)) (hne : ours ≠ ref) :
    ∃ w1 w2,
      (verify_written_result ctx (some raw) n).1.2 =
        .failed ours.length ref.length (firstDiffIdx ours ref) w1 w2 ∧
      firstDiffIdx ours ref ≤ min ours.length ref.length ∧
      ours.take (firstDiffIdx ours ref) = ref.take (firstDiffIdx ours ref) ∧
      (firstDiffIdx ours ref < min ours.length ref.length →
        ours[firstDiffIdx ours ref]? ≠ ref[firstDiffIdx ours ref]?) ∧
      ((∃ t, ref = ours ++ t) ∨ (∃ t, ours = ref ++ t) →
        firstDiffIdx ours ref = min ours.length ref.length) := by
  subst hours href
  unfold verify_written_result
  dsimp only
  rw [if_neg hne]
  refine ⟨_, _, rfl, firstDiffIdx_le_min _ _, firstDiffIdx_take _ _,
    fun h => firstDiffIdx_ne h, fun h => firstDiffIdx_min_of_extension h⟩

/-- Witness for C7: a persisted string `"9"` against the `n = 0` reference
`"1"`. -/
theorem verify_reports_first_mismatch_witness :
    ∃ w1 w2,
      (verify_written_result defaultCtx (some ['9']) 0).1.2 =
        .failed (pyStrip (pyStrip ['9'])).length (pyStrip (referenceString 0)).length
          (firstDiffIdx (pyStrip (pyStrip ['9'])) (pyStrip (referenceString 0))) w1 w2 ∧
      firstDiffIdx (pyStrip (pyStrip ['9'])) (pyStrip (referenceString 0)) ≤
        min (pyStrip (pyStrip ['9'])).length (pyStrip (referenceString 0)).length ∧
      (pyStrip (pyStrip ['9'])).take
          (firstDiffIdx (pyStrip (pyStrip ['9'])) (pyStrip (referenceString 0))) =
        (pyStrip (referenceString 0)).take
          (firstDiffIdx (pyStrip (pyStrip ['9'])) (pyStrip (referenceString 0))) ∧
      (firstDiffIdx (pyStrip (pyStrip ['9'])) (pyStrip (referenceString 0)) <
          min (pyStrip (pyStrip ['9'])).length (pyStrip (referenceString 0)).length →
        (pyStrip (pyStrip ['9']))[firstDiffIdx (pyStrip (pyStrip ['9']))
            (pyStrip (referenceString 0))]? ≠
          (pyStrip (referenceString 0))[firstDiffIdx (pyStrip (pyStrip ['9']))
            (pyStrip (referenceString 0))]?) ∧
      ((∃ t, pyStrip (referenceString 0) = pyStrip (pyStrip ['9']) ++ t) ∨
          (∃ t, pyStrip (pyStrip ['9']) = pyStrip (referenceString 0) ++ t) →
        firstDiffIdx (pyStrip (pyStrip ['9'])) (pyStrip (referenceString 0)) =
          min (pyStrip (pyStrip ['9'])).length (pyStrip (referenceString 0)).length) :=
  verify_reports_first_mismatch defaultCtx ['9'] 0 _ _ rfl rfl (by decide)

/-- Counterexample to claim C9: the boolean result returned to the caller
is `false` both when the file is missing and when the digits mismatch —
the two outcomes are not distinct in the value `verify_written_result`
returns; only the printed diagnostics differ. -/
theorem verify_missing_vs_mismatch_counterexample :
    (verify_written_result defaultCtx none 5).1.1 =
      (verify_written_result defaultCtx (some ['9']) 5).1.1 ∧
    (verify_written_result defaultCtx none 5).1.1 = false ∧
    ((verify_written_result defaultCtx (some ['9']) 5).1.2).isFailed = true := by
  refine ⟨?_, rfl, ?_⟩ <;> decide

/-- Claim C9 as amended: a missing file and a digit mismatch both return
`False` to the caller; they are distinguishable only in the printed report
(the file-not-found message versus the mismatch diagnostics), which the
model returns as a `VerifyReport` — `fileNotFound` for the missing file,
`failed …` (never `fileNotFound`) for a mismatch. -/
theorem verify_missing_vs_mismatch (ctx : DecCtx) (n : Nat) :
    (verify_written_result ctx none n).1 = (false, .fileNotFound) ∧
    (∀ raw, pyStrip (pyStrip raw) ≠ pyStrip (referenceString n) →
      (verify_written_result ctx (some raw) n).1.1 = false ∧
      ((verify_written_result ctx (some raw) n).1.2).isFailed = true ∧
      (verify_written_result ctx (some raw) n).1.2 ≠ .fileNotFound) := by
  refine ⟨rfl, ?_⟩
  intro raw hne
  unfold verify_written_result
  dsimp only
  rw [if_neg hne]
  exact ⟨rfl, rfl, fun h => VerifyReport.noConfusion h⟩

/-- Witness for the amended C9 at `n = 0` with persisted string `"9"`. -/
theorem verify_missing_vs_mismatch_witness :
    (verify_written_result defaultCtx none 0).1 = (false, .fileNotFound) ∧
    ((verify_written_result defaultCtx (some ['9']) 0).1.1 = false ∧
      ((verify_written_result defaultCtx (some ['9']) 0).1.2).isFailed = true ∧
      (verify_written_result defaultCtx (some ['9']) 0).1.2 ≠ .fileNotFound) :=
  ⟨(verify_missing_vs_mismatch defaultCtx 0).1,
    (verify_missing_vs_mismatch defaultCtx 0).2 ['9'] (by decide)⟩

/-! ## The input boundary (claim C8) -/

theorem prompt_nonneg (fuelLen : Nat) :
    ∀ (inputs : List (List Char)) (d r : Int), inputs.length ≤ fuelLen →
      0 ≤ d → prompt_decimal_places inputs d = some r → 0 ≤ r := by
  induction fuelLen with
  | zero =>
    intro inputs d r hl hd h
    have hnil : inputs = [] := List.eq_nil_of_length_eq_zero (by omega)
    subst hnil
    simp [prompt_decimal_places] at h
  | succ f ih =>
    intro inputs d r hl hd h
    cases inputs with
    | nil => simp [prompt_decimal_places] at h
    | cons line rest =>
      have hrest : rest.length ≤ f := by
        simp only [List.length_cons] at hl
        omega
      simp only [prompt_decimal_places] at h
      split at h
      · injection h with h2
        omega
      · split at h
        · exact ih rest d r hrest hd h
        · rename_i n hn
          split at h
          · exact ih rest d r hrest hd h
          · rename_i hneg
            split at h
            · split at h
              · exact Option.noConfusion h
              · rename_i c2 r2
                split at h
                · injection h with h2
                  omega
                · refine ih r2 d r ?_ hd h
                  simp only [List.length_cons] at hl
                  omega
            · injection h with h2
              omega

/-- Claim C8: a negative digit count is rejected at the input boundary and
never reaches the solver.  `prompt_decimal_places` never returns a negative
count (given the non-negative default 10000 used by `main`), and an input
line that parses to a negative integer is consumed by printing the
rejection message and re-prompting on the remaining input — no Newton
iteration or precision-context computation is attempted, as the recursion
equation shows. -/
theorem prompt_rejects_negative :
    (∀ (inputs : List (List Char)) (d r : Int), 0 ≤ d →
      prompt_decimal_places inputs d = some r → 0 ≤ r) ∧
    (∀ (line : List Char) (rest : List (List Char)) (d k : Int),
      parsePyInt (pyStrip line) = some k → k < 0 →
        prompt_decimal_places (line :: rest) d = prompt_decimal_places rest d) := by
  constructor
  · intro inputs d r hd h
    exact prompt_nonneg inputs.length inputs d r (Nat.le_refl _) hd h
  · intro line rest d k hparse hneg
    have hne : ¬ pyStrip line = [] := by
      intro h0
      rw [h0] at hparse
      simp [parsePyInt, parseDigits] at hparse
    simp only [prompt_decimal_places]
    rw [if_neg hne, hparse]
    dsimp only
    rw [if_pos hneg]

/-- Witness for C8: the accepted input `"5"` yields a non-negative count,
and a leading `"-3"` entry is skipped, leaving the prompt to continue on
the rest of the input. -/
theorem prompt_rejects_negative_witness :
    ((0 : Int) ≤ 5) ∧
      prompt_decimal_places [['-', '3'], ['5']] 10000 =
        prompt_decimal_places [['5']] 10000 :=
  ⟨prompt_rejects_negative.1 [['5']] 10000 5 (by norm_num) (by decide),
    prompt_rejects_negative.2 ['-', '3'] [['5']] 10000 (-3) (by decide) (by norm_num)⟩
